import Mathlib

/-!
Verification of the namesmith word generator (src/main.rs).

Strings are modelled as `List Char` (one element per Unicode codepoint; Rust's
byte-based `str::replace` coincides with codepoint-level matching on valid
UTF-8, since UTF-8 is self-synchronizing).  The shared `ThreadRng` is modelled
as a tape `List Nat` of raw draws, consumed one element per random choice:
`SliceRandom::choose` with draw `d` on a slice `l` picks `l[d % l.length]`,
and `gen_range(1..max+1)` with draw `d` yields `1 + d % max` (for `max ≥ 1`;
for `max < 1` the Rust call panics, and theorems below assume `1 ≤ max`).
Rust functions that panic on empty slices (`choose(..).unwrap()`) are
modelled with a default value; every theorem that depends on such a draw
carries a non-emptiness hypothesis making the default unreachable.
-/

namespace Namesmith

/-- Stress-marker character `'` (codepoint 39), pushed by `create_word`. -/
def stressC : Char := Char.ofNat 39

/-- Combining tie bar U+0361 used for diphthong detection (`c as u32 == 865`). -/
def tieC : Char := Char.ofNat 865

/-- Rust `s.starts_with(tag)` for a single-character tag: the first codepoint
equals the tag (false on the empty string). -/
def startsWith (tag : Char) (s : List Char) : Bool :=
  match s with
  | [] => false
  | c :: _ => c == tag

/-- Rust `wrap_sound`: `format!("[{}]", sound)`. -/
def wrapSound (sound : List Char) : List Char :=
  '[' :: sound ++ [']']

/-- Rust `slice.choose(rng)` given the tape draw `d`: uniform choice modelled as
index `d % l.length`.  On an empty slice the Rust callers `unwrap` (panic);
the model returns `dflt` there. -/
def chooseL (l : List α) (d : Nat) (dflt : α) : α :=
  l.getD (d % l.length) dflt

/-- Rust struct `Config` (`main.rs` lines 440-459).  `romanization` is a
`HashMap<String, String>`; it is modelled as an association list whose order
stands for the (unspecified) iteration order of the map. -/
structure Config where
  consonants : List (List Char)
  onsets : List (List Char)
  codas : List (List Char)
  vowels : List (List Char)
  stressed : Int
  romanization : List (List Char × List Char)
  structures : List (List Char)
  max_syllable_count : Int

/-- Fuel-indexed core of `str::replace`: scan left to right, replacing each
non-overlapping occurrence of `pat` by `rep`.  Fuel is an upper bound on the
number of scanned characters; `replaceAll` always supplies enough. -/
def replaceAllGo (pat rep : List Char) : Nat → List Char → List Char
  | 0, s => s
  | fuel + 1, s =>
    match s with
    | [] => []
    | c :: s' =>
      if pat ≠ [] ∧ pat.isPrefixOf (c :: s') then
        rep ++ replaceAllGo pat rep fuel ((c :: s').drop pat.length)
      else
        c :: replaceAllGo pat rep fuel s'

/-- Rust `s.replace(pat, rep)` (leftmost, non-overlapping).  The program only
ever calls it with non-empty patterns; for `pat = []` the model leaves `s`
unchanged. -/
def replaceAll (s pat rep : List Char) : List Char :=
  replaceAllGo pat rep s.length s

/-- Loop body of `build_syllable` (`main.rs` lines 182-218), iterating over the
remaining template characters with `i` the current index and `vi` the position
of the (first) `v` found by `structure.find("v")`.  An onset drawn before the
vowel is pushed when the syllable is still empty and otherwise inserted at
position 0; vowels and codas are appended. -/
def bsLoop (vi : Nat) (vowels onsets codas : List (List Char)) :
    List Char → Nat → List (List Char) → List Nat → List (List Char) × List Nat
  | [], _, syllable, tape => (syllable, tape)
  | c :: rest, i, syllable, tape =>
    let d := tape.headD 0
    if c == 'v' then
      bsLoop vi vowels onsets codas rest (i + 1)
        (syllable ++ [wrapSound (chooseL vowels d [])]) tape.tail
    else if i < vi then
      bsLoop vi vowels onsets codas rest (i + 1)
        (if syllable.length == 0 then syllable ++ [wrapSound (chooseL onsets d [])]
         else wrapSound (chooseL onsets d []) :: syllable) tape.tail
    else
      bsLoop vi vowels onsets codas rest (i + 1)
        (syllable ++ [wrapSound (chooseL codas d [])]) tape.tail

/-- Token sequence built by `build_syllable` for a (lowercased) template,
before `syllable.concat()`.  `vi` is `structure.find("v")`; when the template
has no `v` the Rust code panics (`unwrap`), while `findIdx` returns the length
— theorems about templates always assume a `v` is present. -/
def buildSyllableTokens (templ : List Char) (vowels onsets codas : List (List Char))
    (tape : List Nat) : List (List Char) × List Nat :=
  bsLoop (templ.findIdx (· == 'v')) vowels onsets codas templ 0 [] tape

/-- Rust `build_syllable`: the caller receives the concatenated syllable
string (`word.push(syllable.concat())`). -/
def buildSyllable (templ : List Char) (config : Config) (onsets codas : List (List Char))
    (tape : List Nat) : List Char × List Nat :=
  let r := buildSyllableTokens templ config.vowels onsets codas tape
  (r.1.flatten, r.2)

/-- Stress condition of `create_word` line 243, transcribed literally:
`i == config.stressed || i == syllable_count - (config.stressed * -1)
 || syllable_count == 1` (with `i` and `syllable_count` as `i32`). -/
def stressCond (stressed : Int) (sc i : Nat) : Bool :=
  ((i : Int) == stressed) || ((i : Int) == (sc : Int) - stressed * (-1)) || ((sc : Int) == 1)

/-- Syllable-assembly loop of `create_word` (lines 241-257): for each syllable
index, optionally push the stress marker, draw a template, build the syllable,
and push a boundary space unless it is the last syllable. -/
def asmLoop (config : Config) (onsets codas : List (List Char)) (sc : Nat) :
    List Nat → List (List Char) → List Nat → List (List Char) × List Nat
  | [], word, tape => (word, tape)
  | i :: rest, word, tape =>
    let word := if stressCond config.stressed sc i then word ++ [[stressC]] else word
    let d := tape.headD 0
    let templ := chooseL config.structures d []
    let r := buildSyllable (templ.map Char.toLower) config onsets codas tape.tail
    let word := word ++ [r.1]
    let word := if i != sc - 1 then word ++ [[' ']] else word
    asmLoop config onsets codas sc rest word r.2

/-- Word assembly of `create_word` before any affixation: draw
`syllable_count` from `1..max_syllable_count + 1`, then run the syllable
loop for indices `0..syllable_count`. -/
def assembleWord (config : Config) (onsets codas : List (List Char)) (tape : List Nat) :
    List (List Char) × List Nat :=
  let d0 := tape.headD 0
  let sc := 1 + d0 % config.max_syllable_count.toNat
  asmLoop config onsets codas sc (List.range sc) [] tape.tail

/-- Rejection-sampling loop of `create_word` (lines 278-286 and 346-352):
repeatedly draw an entry from the shrinking working copy, removing the first
entry equal to the drawn one, until the drawn entry starts with `tag`.
The Rust loop is unbounded; the model adds fuel, and `c5` below proves that
fuel `copy.length` always suffices when a tagged entry exists.  An empty copy
means the Rust `choose(..).unwrap()` panics, modelled as `none`. -/
def rejLoop (tag : Char) : Nat → List (List Char) → List Nat → Option (List Char × List Nat)
  | 0, _, _ => none
  | fuel + 1, copy, tape =>
    if copy.length = 0 then none
    else
      let d := tape.headD 0
      let a := chooseL copy d []
      let copy' := copy.erase a
      if startsWith tag a then some (a, tape.tail)
      else rejLoop tag fuel copy' tape.tail

/-- Per-index emission of the diphthong-parsing scan in the prefix block
(`create_word` lines 296-335): look at the codepoint at `i`, its successor,
and (in the final position) its predecessor. -/
def diphStepPre (cs : List Char) (i : Nat) : List Char :=
  let c := cs.getD i ' '
  match cs[i + 1]? with
  | some x =>
    if x.toNat == 865 then ['[', c]
    else if c.toNat == 865 then [c]
    else ['[', c, ']']
  | none =>
    if i != 0 && (cs.getD (i - 1) ' ').toNat == 865 then [c, ']']
    else ['[', c, ']']

/-- Diphthong parsing of the prefix block: concatenation of the per-index
emissions over `affix.chars().enumerate()`. -/
def diphPre (cs : List Char) : List Char :=
  ((List.range cs.length).map (diphStepPre cs)).flatten

/-- Per-index emission of the diphthong-parsing scan in the suffix block
(`create_word` lines 362-401), transcribed separately from the (textually
identical) prefix block. -/
def diphStepSuf (cs : List Char) (i : Nat) : List Char :=
  let c := cs.getD i ' '
  match cs[i + 1]? with
  | some x =>
    if x.toNat == 865 then ['[', c]
    else if c.toNat == 865 then [c]
    else ['[', c, ']']
  | none =>
    if i != 0 && (cs.getD (i - 1) ' ').toNat == 865 then [c, ']']
    else ['[', c, ']']

/-- Diphthong parsing of the suffix block. -/
def diphSuf (cs : List Char) : List Char :=
  ((List.range cs.length).map (diphStepSuf cs)).flatten

/-- Affix handling of `create_word` (lines 258-411).  The scan with early
`break` (lines 261-271) computes exactly whether some entry starts with `+`
and whether some entry starts with `-`.  The `none` branches of the matches
model the `unwrap` panic of a draw from an exhausted copy; they are
unreachable under the corresponding guard (see `c5`). -/
def applyAffixes (affixes : List (List Char)) (word : List (List Char)) (tape : List Nat) :
    List (List Char) × List Nat :=
  if affixes.length > 0 then
    let hasPre := affixes.any (startsWith '+')
    let hasSuf := affixes.any (startsWith '-')
    let r1 :=
      if hasPre then
        match rejLoop '+' affixes.length affixes tape with
        | some (affix, tape') =>
          let affix := replaceAll affix ['+'] []
          let realAffix := diphPre affix
          (replaceAll realAffix ['+'] [] :: [' '] :: word, tape')
        | none => (word, tape)
      else (word, tape)
    if hasSuf then
      match rejLoop '-' affixes.length affixes r1.2 with
      | some (affix, tape') =>
        let affix := replaceAll affix ['-'] []
        let realAffix := diphSuf affix
        let w := if r1.1.getLastD [] != [' '] then r1.1 ++ [[' ']] else r1.1
        (w ++ [replaceAll realAffix ['-'] []], tape')
      | none => r1
    else r1
  else (word, tape)

/-- Rust `create_word`: assemble the syllables, then apply affixation. -/
def createWord (config : Config) (onsets codas affixes : List (List Char)) (tape : List Nat) :
    List (List Char) × List Nat :=
  let r := assembleWord config onsets codas tape
  applyAffixes affixes r.1 r.2

/-- Rust `create_final_str` (lines 427-438): join the word tokens; replace
every bracketed romanization key by its grapheme (in map-iteration order,
modelled by the list order); strip `'` and spaces from the romanized string
only; strip brackets from both components.  The bracketed key
`format!("[{}]", key)` is the same string `wrap_sound` builds, so it is
written `wrapSound kv.1` here. -/
def createFinalStr (word : List (List Char)) (config : Config) : List Char × List Char :=
  let ipaWord := word.flatten
  let clone := config.romanization.foldl
    (fun acc kv => replaceAll acc (wrapSound kv.1) kv.2) ipaWord
  let romanizedWord := replaceAll (replaceAll clone [stressC] []) [' '] []
  (replaceAll (replaceAll ipaWord ['['] []) [']'] [],
   replaceAll (replaceAll romanizedWord ['['] []) [']'] [])

/-- Concrete descriptor of spec §8: `vowels=["a"]`, `onsets=["p"]`, `codas=[]`,
`structures=["cv"]`, `maxSyllableCount=1`, `stressed=0`,
`romanization={"p":"p","a":"a"}`. -/
def cfgScenario : Config :=
  ⟨[['p']], [['p']], [], [['a']], 0, [(['p'], ['p']), (['a'], ['a'])], [['c', 'v']], 1⟩

/-- Descriptor with an out-of-range stress index (`stressed = 5`,
`maxSyllableCount = 2`) and non-empty inventories, used to test the
stress-marker invariant. -/
def cfgStress5 : Config :=
  ⟨[['p']], [['p']], [['t']], [['a']], 5, [], [['c', 'v']], 2⟩

/-- Assembled word `' [p][a]` used to test romanization order sensitivity. -/
def wOrder : List (List Char) := [[stressC], ['[', 'p', ']', '[', 'a', ']']]

/-- Romanization `p ↦ [a], a ↦ x` in one iteration order. -/
def cfgOrderA : Config :=
  ⟨[], [], [], [], 0, [(['p'], ['[', 'a', ']']), (['a'], ['x'])], [], 1⟩

/-- The same romanization pairs as `cfgOrderA` in the other iteration order. -/
def cfgOrderB : Config :=
  ⟨[], [], [], [], 0, [(['a'], ['x']), (['p'], ['[', 'a', ']'])], [], 1⟩

/-- Expected onset run of a built syllable, in draw order: position `j` of the
template consumes tape element `j` and draws from `onsets`. -/
def onsPart (onsets : List (List Char)) (tape : List Nat) (vi : Nat) : List (List Char) :=
  (List.range vi).map (fun j => wrapSound (chooseL onsets (tape.getD j 0) []))

/-- Expected tokens of a built syllable from the vowel position on: position
`j` of `post` consumes tape element `j`, drawing from `vowels` on a `v` and
from `codas` otherwise. -/
def postPart (post : List Char) (vowels codas : List (List Char)) (tape : List Nat) :
    List (List Char) :=
  (List.range post.length).map (fun j =>
    if post.getD j ' ' == 'v' then wrapSound (chooseL vowels (tape.getD j 0) [])
    else wrapSound (chooseL codas (tape.getD j 0) []))

/-- A string containing neither bracket character. -/
def bracketFree (s : List Char) : Prop := '[' ∉ s ∧ ']' ∉ s

instance (s : List Char) : Decidable (bracketFree s) := by
  unfold bracketFree
  infer_instance

/-- Replace a whole word token: a token equal to the bracketed key becomes the
grapheme; every other token is untouched. -/
def substTok (k v t : List Char) : List Char := if t == wrapSound k then v else t

/-- Apply a list of romanization pairs token-wise, in list order. -/
def applyPairs (ps : List (List Char × List Char)) (t : List Char) : List Char :=
  ps.foldl (fun t kv => substTok kv.1 kv.2 t) t

/-- First-match association lookup for romanization pairs. -/
def assocLookup : List (List Char × List Char) → List Char → Option (List Char)
  | [], _ => none
  | kv :: ps, s => if kv.1 == s then some kv.2 else assocLookup ps s

/-- Well-formed word token: either a marker/affix remnant without brackets, or
a bracketed phoneme with bracket-free payload. -/
def wfTok (t : List Char) : Prop := bracketFree t ∨ ∃ s, t = wrapSound s ∧ bracketFree s

/-- The same descriptor with the romanization pairs in another order. -/
def withRom (cfg : Config) (ps : List (List Char × List Char)) : Config :=
  ⟨cfg.consonants, cfg.onsets, cfg.codas, cfg.vowels, cfg.stressed, ps,
   cfg.structures, cfg.max_syllable_count⟩

/-! ## Basic lemmas about the draw and replace primitives -/

theorem chooseL_singleton (x : α) (d : Nat) (dflt : α) : chooseL [x] d dflt = x := by
  simp [chooseL, Nat.mod_one]

theorem chooseL_mem {l : List α} (h : l ≠ []) (d : Nat) (dflt : α) : chooseL l d dflt ∈ l := by
  have hlen : 0 < l.length := List.length_pos.mpr h
  have hlt : d % l.length < l.length := Nat.mod_lt _ hlen
  rw [chooseL, List.getD_eq_getElem l dflt hlt]
  exact List.getElem_mem hlt

theorem replaceAllGo_congr (pat rep : List Char) :
    ∀ f1 f2 s, s.length ≤ f1 → s.length ≤ f2 →
      replaceAllGo pat rep f1 s = replaceAllGo pat rep f2 s := by
  intro f1
  induction f1 with
  | zero =>
    intro f2 s h1 _
    have : s = [] := List.eq_nil_of_length_eq_zero (Nat.le_zero.mp h1)
    subst this
    cases f2 <;> rfl
  | succ f1 ih =>
    intro f2 s h1 h2
    cases f2 with
    | zero =>
      have : s = [] := List.eq_nil_of_length_eq_zero (Nat.le_zero.mp h2)
      subst this
      rfl
    | succ f2 =>
      cases s with
      | nil => rfl
      | cons c s' =>
        simp only [replaceAllGo]
        by_cases hp : pat ≠ [] ∧ pat.isPrefixOf (c :: s')
        · rw [if_pos hp, if_pos hp]
          have hplen : 1 ≤ pat.length := by
            have := hp.1
            cases pat with
            | nil => exact absurd rfl this
            | cons _ _ => simp
          have hd : ((c :: s').drop pat.length).length ≤ f1 := by
            rw [List.length_drop]
            simp only [List.length_cons] at h1 ⊢
            omega
          have hd2 : ((c :: s').drop pat.length).length ≤ f2 := by
            rw [List.length_drop]
            simp only [List.length_cons] at h2 ⊢
            omega
          rw [ih f2 _ hd hd2]
        · rw [if_neg hp, if_neg hp]
          have hs1 : s'.length ≤ f1 := by simp only [List.length_cons] at h1; omega
          have hs2 : s'.length ≤ f2 := by simp only [List.length_cons] at h2; omega
          rw [ih f2 _ hs1 hs2]

theorem replaceAll_cons (c : Char) (s pat rep : List Char) :
    replaceAll (c :: s) pat rep =
      if pat ≠ [] ∧ pat.isPrefixOf (c :: s) then
        rep ++ replaceAll ((c :: s).drop pat.length) pat rep
      else c :: replaceAll s pat rep := by
  show replaceAllGo pat rep (s.length + 1) (c :: s) = _
  simp only [replaceAllGo]
  by_cases hp : pat ≠ [] ∧ pat.isPrefixOf (c :: s)
  · rw [if_pos hp, if_pos hp]
    have hplen : 1 ≤ pat.length := by
      have := hp.1
      cases pat with
      | nil => exact absurd rfl this
      | cons _ _ => simp
    have : ((c :: s).drop pat.length).length ≤ s.length := by
      rw [List.length_drop]
      simp only [List.length_cons]
      omega
    rw [replaceAll, replaceAllGo_congr pat rep s.length _ _ this le_rfl]
  · rw [if_neg hp, if_neg hp]
    rfl

theorem replaceAll_single_eq_filter (s : List Char) (c : Char) :
    replaceAll s [c] [] = s.filter (fun x => !(x == c)) := by
  induction s with
  | nil => rfl
  | cons x s' ih =>
    rw [replaceAll_cons]
    by_cases hx : c = x
    · subst hx
      have hpre : ([c] : List Char).isPrefixOf (c :: s') = true := by
        simp [List.isPrefixOf]
      rw [if_pos ⟨by simp, hpre⟩]
      simp [ih]
    · have hpre : ([c] : List Char).isPrefixOf (x :: s') = false := by
        simp [List.isPrefixOf]
        intro h
        exact absurd h hx
      rw [if_neg (by simp [hpre])]
      have : (x == c) = false := by simp [bne]; exact fun h => hx h.symm
      simp [List.filter, this, ih]

theorem replaceAll_skip (pat rep : List Char) (hpat : pat.head? = some '[') :
    ∀ t s, '[' ∉ t → replaceAll (t ++ s) pat rep = t ++ replaceAll s pat rep := by
  obtain ⟨pat', rfl⟩ : ∃ pat', pat = '[' :: pat' := by
    cases pat with
    | nil => simp at hpat
    | cons p0 pat' => simp at hpat; exact ⟨pat', by rw [hpat]⟩
  intro t
  induction t with
  | nil => intro s _; rfl
  | cons x t' ih =>
    intro s hx
    have hxne : x ≠ '[' := fun h => hx (h ▸ List.mem_cons_self x t')
    rw [List.cons_append, replaceAll_cons]
    have : (('[' :: pat').isPrefixOf (x :: (t' ++ s))) = false := by
      simp [List.isPrefixOf]
      intro h
      exact absurd h.symm hxne
    rw [if_neg (by simp [this])]
    rw [ih s (fun h => hx (List.mem_cons_of_mem x h))]
    simp

theorem replaceAll_exact (x pat rep : List Char) (hp : pat ≠ []) :
    replaceAll (pat ++ x) pat rep = rep ++ replaceAll x pat rep := by
  cases pat with
  | nil => exact absurd rfl hp
  | cons p0 pat' =>
    rw [List.cons_append, replaceAll_cons]
    have hpre : (p0 :: pat').isPrefixOf (p0 :: (pat' ++ x)) = true :=
      List.isPrefixOf_iff_prefix.mpr (by rw [← List.cons_append]; exact List.prefix_append _ x)
    rw [if_pos ⟨hp, by rw [← List.cons_append] at hpre ⊢; exact hpre⟩]
    rw [← List.cons_append, List.drop_left]

theorem closedKey_match_eq :
    ∀ (k s x : List Char), ']' ∉ k → ']' ∉ s →
      (k ++ [']']).isPrefixOf (s ++ (']' :: x)) = true → k = s := by
  intro k
  induction k with
  | nil =>
    intro s x _ hs h
    cases s with
    | nil => rfl
    | cons b s' =>
      simp only [List.nil_append, List.cons_append, List.isPrefixOf, Bool.and_eq_true,
        beq_iff_eq] at h
      exact absurd h.1.symm (fun hb => hs (hb ▸ List.mem_cons_self b s'))
  | cons a k' ih =>
    intro s x hk hs h
    cases s with
    | nil =>
      simp only [List.cons_append, List.nil_append, List.isPrefixOf, Bool.and_eq_true,
        beq_iff_eq] at h
      exact absurd h.1 (fun ha => hk (ha ▸ List.mem_cons_self a k'))
    | cons b s' =>
      simp only [List.cons_append, List.isPrefixOf, Bool.and_eq_true, beq_iff_eq] at h
      have h2 := ih s' x (fun hm => hk (List.mem_cons_of_mem a hm))
        (fun hm => hs (List.mem_cons_of_mem b hm)) h.2
      rw [h.1, h2]

theorem wrapKey_no_match (k s x : List Char) (hk : ']' ∉ k) (hs : ']' ∉ s)
    (hne : s ≠ k) : ((k ++ [']']).isPrefixOf (s ++ (']' :: x))) = false := by
  cases hb : (k ++ [']']).isPrefixOf (s ++ (']' :: x)) with
  | false => rfl
  | true => exact absurd (closedKey_match_eq k s x hk hs hb).symm hne

theorem replaceAll_wrapped_ne (s k x rep : List Char) (hk : ']' ∉ k) (hs1 : '[' ∉ s)
    (hs2 : ']' ∉ s) (hne : s ≠ k) :
    replaceAll (wrapSound s ++ x) (wrapSound k) rep =
      wrapSound s ++ replaceAll x (wrapSound k) rep := by
  have e1 : wrapSound s ++ x = '[' :: (s ++ (']' :: x)) := by
    simp [wrapSound]
  rw [e1, replaceAll_cons]
  have hpre : ((wrapSound k).isPrefixOf ('[' :: (s ++ (']' :: x)))) = false := by
    show (('[' :: (k ++ [']'])).isPrefixOf ('[' :: (s ++ (']' :: x)))) = false
    simp only [List.isPrefixOf, beq_self_eq_true, Bool.true_and]
    exact wrapKey_no_match k s x hk hs2 hne
  rw [if_neg (by simp [hpre])]
  rw [replaceAll_skip (wrapSound k) rep (by simp [wrapSound]) s (']' :: x) hs1]
  rw [replaceAll_cons]
  have hpre2 : ((wrapSound k).isPrefixOf (']' :: x)) = false := by
    simp [wrapSound, List.isPrefixOf]
  rw [if_neg (by simp [hpre2])]
  simp [wrapSound]

theorem replaceAll_wrapped_eq (k x rep : List Char) :
    replaceAll (wrapSound k ++ x) (wrapSound k) rep = rep ++ replaceAll x (wrapSound k) rep :=
  replaceAll_exact x (wrapSound k) rep (by simp [wrapSound])

theorem strip_brackets (s : List Char) :
    replaceAll (replaceAll s ['['] []) [']'] [] =
      s.filter (fun c => !(c == ']') && !(c == '[')) := by
  rw [replaceAll_single_eq_filter, replaceAll_single_eq_filter, List.filter_filter]

/-! ## C7: diphthong parsing of `a` + tie bar + `i`, and of a single codepoint -/

/-- C7: the diphthong-aware affix parsing maps `a` + U+0361 + `i` to the single
token `[a` + U+0361 + `i]` (one bracket pair spanning the tie bar), and maps
any single codepoint `c` to the standalone bracketed token `[c]`. -/
theorem c7_diphthong_parse :
    diphSuf ['a', tieC, 'i'] = ['[', 'a', tieC, 'i', ']'] ∧
      ∀ c : Char, diphSuf [c] = ['[', c, ']'] :=
  ⟨by decide, fun _ => rfl⟩

/-! ## C9: the two duplicated diphthong-parsing blocks agree -/

/-- C9: the diphthong-parsing logic of the prefix path and of the suffix path
(`main.rs` lines 296-335 and 362-401, transcribed separately) are
extensionally equal as functions of the stripped affix string. -/
theorem c9_parse_blocks_equal : ∀ cs : List Char, diphPre cs = diphSuf cs :=
  fun _ => rfl

/-! ## C1: what the phonetic output strips -/

theorem scenario_word : ∀ tape : List Nat,
    (createWord cfgScenario [['p']] [] [] tape).1 = [[stressC], ['[', 'p', ']', '[', 'a', ']']] := by
  intro tape
  have hr : List.range 1 = [0] := by decide
  have hm : List.map Char.toLower ['c', 'v'] = ['c', 'v'] := by decide
  have hf : List.findIdx (fun x => x == 'v') ['c', 'v'] = 1 := by decide
  have h3 : ('c' == 'v') = false := by decide
  have h4 : ('v' == 'v') = true := by decide
  have h5 : stressCond 0 1 0 = true := by decide
  simp only [createWord, assembleWord, cfgScenario, Nat.mod_one, Nat.add_zero, Int.toNat_one,
    hr, hm, hf, h3, h4, h5, asmLoop, chooseL_singleton, buildSyllable, buildSyllableTokens,
    bsLoop, applyAffixes, List.length_nil, List.any_nil, gt_iff_lt, Nat.lt_irrefl, if_false,
    Bool.false_eq_true, if_true, List.nil_append, List.cons_append, List.flatten]
  decide

/-- C1 counterexample: in the §8 scenario the output pair is not
`("pa", "pa")` — the phonetic component keeps the stress marker
(`create_final_str` strips only brackets from it), so the pair is
`("'pa", "pa")`. -/
theorem c1_counterexample :
    createFinalStr (createWord cfgScenario [['p']] [] [] []).1 cfgScenario ≠
      (['p', 'a'], ['p', 'a']) := by decide

/-- C1 amended: the phonetic output equals the concatenation of all word
tokens with only the bracket characters stripped — stress markers and
boundary markers are preserved in it (only the romanized component strips
them) — and in the §8 scenario every generation yields the pair
`("'pa", "pa")`. -/
theorem c1_phonetic_strips_brackets_only :
    (∀ (word : List (List Char)) (cfg : Config),
        (createFinalStr word cfg).1 =
          word.flatten.filter (fun c => !(c == ']') && !(c == '['))) ∧
      ∀ tape : List Nat,
        createFinalStr (createWord cfgScenario [['p']] [] [] tape).1 cfgScenario =
          ([stressC, 'p', 'a'], ['p', 'a']) := by
  constructor
  · intro word cfg
    exact strip_brackets word.flatten
  · intro tape
    rw [scenario_word tape]
    decide

/-! ## C2: the stress-marker count -/

/-- C2 counterexample: with the valid descriptor `cfgStress5`
(`maxSyllableCount = 2`, `stressed = 5`, non-empty structures and
inventories) and a draw sequence selecting two syllables, the assembled word
(before affixation) contains no stress marker at all, not exactly one. -/
theorem c2_counterexample :
    ¬(assembleWord cfgStress5 [['p']] [['t']] [1, 0, 0, 0, 0, 0, 0]).1.count [stressC] = 1 := by
  decide

/-! ## C5: the rejection-sampling loop -/

theorem rejLoop_total (tag : Char) :
    ∀ (fuel : Nat) (copy : List (List Char)) (tape : List Nat),
      copy.length = fuel →
      (∃ a ∈ copy, startsWith tag a = true) →
      ∃ r tape', rejLoop tag fuel copy tape = some (r, tape') ∧ startsWith tag r = true := by
  intro fuel
  induction fuel with
  | zero =>
    intro copy tape hlen hex
    obtain ⟨a, ha, _⟩ := hex
    rw [List.length_eq_zero] at hlen
    subst hlen
    simp at ha
  | succ fuel ih =>
    intro copy tape hlen hex
    have hne : copy.length ≠ 0 := by omega
    have hcopy : copy ≠ [] := fun h => hne (by rw [h]; rfl)
    have hunfold : rejLoop tag (fuel + 1) copy tape =
        if copy.length = 0 then none
        else
          if startsWith tag (chooseL copy (tape.headD 0) [])
          then some (chooseL copy (tape.headD 0) [], tape.tail)
          else rejLoop tag fuel (copy.erase (chooseL copy (tape.headD 0) [])) tape.tail := rfl
    by_cases hstart : startsWith tag (chooseL copy (tape.headD 0) []) = true
    · refine ⟨chooseL copy (tape.headD 0) [], tape.tail, ?_, hstart⟩
      rw [hunfold, if_neg hne, if_pos hstart]
    · obtain ⟨b, hb, hsb⟩ := hex
      have hmem : chooseL copy (tape.headD 0) [] ∈ copy := chooseL_mem hcopy _ _
      have hba : b ≠ chooseL copy (tape.headD 0) [] := by
        intro h
        rw [← h] at hstart
        exact hstart hsb
      have hbe : b ∈ copy.erase (chooseL copy (tape.headD 0) []) :=
        (List.mem_erase_of_ne hba).mpr hb
      have hlen' : (copy.erase (chooseL copy (tape.headD 0) [])).length = fuel := by
        rw [List.length_erase_of_mem hmem, hlen]
        omega
      obtain ⟨r, t', hr, hsr⟩ := ih _ tape.tail hlen' ⟨b, hbe, hsb⟩
      refine ⟨r, t', ?_, hsr⟩
      rw [hunfold, if_neg hne, if_neg hstart]
      exact hr

/-- C5: whenever some entry of the affix list carries the required tag, the
rejection-sampling loop (drawing from and shrinking a working copy of the
list) succeeds within at most `affixList.length` draws — fuel equal to the
list length is always sufficient — and the entry it yields starts with the
tag. -/
theorem c5_rejection_terminates (tag : Char) (copy : List (List Char)) (tape : List Nat)
    (hex : ∃ a ∈ copy, startsWith tag a = true) :
    ∃ r tape', rejLoop tag copy.length copy tape = some (r, tape') ∧
      startsWith tag r = true :=
  rejLoop_total tag copy.length copy tape rfl hex

/-- Witness for `c5_rejection_terminates` at the concrete affix list
`["x", "+y"]` (one untagged and one `+`-tagged entry). -/
theorem c5_witness :
    (∃ a ∈ [['x'], ['+', 'y']], startsWith '+' a = true) ∧
      ∃ r tape', rejLoop '+' 2 [['x'], ['+', 'y']] [0, 0] = some (r, tape') ∧
        startsWith '+' r = true :=
  ⟨by decide, c5_rejection_terminates '+' [['x'], ['+', 'y']] [0, 0] (by decide)⟩

/-! ## C10: an affix entry that is exactly the tag character -/

/-- C10: when the drawn prefix entry is exactly `"+"`, affixation still
proceeds — the empty affix string is inserted at word position 0, a boundary
marker at position 1, and the rest of the word is unchanged (no error, no
skipping). -/
theorem c10_empty_affix : ∀ (w : List (List Char)) (tape : List Nat),
    (applyAffixes [['+']] w tape).1 = [] :: [' '] :: w := by
  intro w tape
  have h1 : (('+' : Char) == '-') = false := by decide
  have h2 : (('+' : Char) == '+') = true := by decide
  simp only [applyAffixes, rejLoop, chooseL_singleton, List.length_cons, List.length_nil,
    List.any_cons, List.any_nil, startsWith, h1, h2, Bool.or_false, Nat.zero_add,
    gt_iff_lt, Nat.lt_irrefl, Nat.zero_lt_one, if_true, if_false, Bool.false_eq_true,
    replaceAll, replaceAllGo, diphPre, List.range_zero, List.map_nil, List.flatten_nil]
  rfl

/-! ## C3: order sensitivity of romanization replacement -/

/-- C3 counterexample: the two descriptors hold the same romanization pairs
(`p ↦ "[a]"`, `a ↦ "x"`) in the two possible iteration orders, yet render the
same assembled word `' [p][a]` to different romanized strings (`"xx"` versus
`"ax"`): replacement order across keys is observable when a grapheme contains
a bracket character. -/
theorem c3_counterexample :
    cfgOrderA.romanization.Perm cfgOrderB.romanization ∧
      (createFinalStr wOrder cfgOrderA).2 ≠ (createFinalStr wOrder cfgOrderB).2 := by
  constructor
  · exact List.Perm.swap _ _ _
  · decide

/-! ## C4: tag stripping removes every tag character -/

/-- C4 counterexample: for the prefix entry `"+a+b"` the parsed affix token is
`[a][b]` — the interior `+` is removed as well (Rust `replace` removes every
occurrence), not preserved as the claim states. -/
theorem c4_counterexample :
    (applyAffixes [['+', 'a', '+', 'b']] [['x']] []).1 =
        [['[', 'a', ']', '[', 'b', ']'], [' '], ['x']] ∧
      '+' ∉ (applyAffixes [['+', 'a', '+', 'b']] [['x']] []).1.headD [] := by
  decide

/-- C4 amended: when the prefix path (resp. suffix path) selects an entry,
every occurrence of the tag character `+` (resp. `-`) is removed from it —
not only the leading one — before diphthong parsing, and any tag character in
the parsed token is removed again; the rest of the entry reaches diphthong
parsing unchanged. -/
theorem c4_tag_chars_all_removed : ∀ (e : List Char) (w : List (List Char)) (tape : List Nat),
    (startsWith '+' e = true →
      (applyAffixes [e] w tape).1 =
        replaceAll (diphPre (replaceAll e ['+'] [])) ['+'] [] :: [' '] :: w) ∧
    (startsWith '-' e = true →
      (applyAffixes [e] w tape).1 =
        (if w.getLastD [] == [' '] then w else w ++ [[' ']]) ++
          [replaceAll (diphSuf (replaceAll e ['-'] [])) ['-'] []]) := by
  intro e w tape
  constructor
  · intro h
    obtain ⟨e', rfl⟩ : ∃ e', e = '+' :: e' := by
      cases e with
      | nil => simp [startsWith] at h
      | cons c e' =>
        simp only [startsWith, beq_iff_eq] at h
        exact ⟨e', by rw [h]⟩
    have hsuf : startsWith '-' ('+' :: e') = false := by simp [startsWith]
    have hrej : rejLoop '+' 1 [('+' :: e')] tape = some ('+' :: e', tape.tail) := by
      show (if (1 : Nat) = 0 then none else _) = _
      rw [if_neg (by omega)]
      simp only [chooseL_singleton]
      rw [if_pos h]
    simp only [applyAffixes, List.length_cons, List.length_nil, List.any_cons, List.any_nil,
      Bool.or_false, h, hsuf, gt_iff_lt, Nat.zero_lt_one, if_true, Bool.false_eq_true,
      if_false, hrej]
    simp
  · intro h
    obtain ⟨e', rfl⟩ : ∃ e', e = '-' :: e' := by
      cases e with
      | nil => simp [startsWith] at h
      | cons c e' =>
        simp only [startsWith, beq_iff_eq] at h
        exact ⟨e', by rw [h]⟩
    have hpre : startsWith '+' ('-' :: e') = false := by simp [startsWith]
    have hrej : rejLoop '-' 1 [('-' :: e')] tape = some ('-' :: e', tape.tail) := by
      show (if (1 : Nat) = 0 then none else _) = _
      rw [if_neg (by omega)]
      simp only [chooseL_singleton]
      rw [if_pos h]
    simp only [applyAffixes, List.length_cons, List.length_nil, List.any_cons, List.any_nil,
      Bool.or_false, h, hpre, gt_iff_lt, Nat.zero_lt_one, if_true, Bool.false_eq_true,
      if_false, hrej, bne]
    cases hlast : (w.getLastD [] == [' ']) with
    | true => simp [hlast]
    | false => simp [hlast]

/-- Witness for `c4_tag_chars_all_removed` at the prefix entry `"+t"`. -/
theorem c4_witness :
    startsWith '+' ['+', 't'] = true ∧
      (applyAffixes [['+', 't']] [['x']] []).1 =
        replaceAll (diphPre (replaceAll ['+', 't'] ['+'] [])) ['+'] [] :: [' '] :: [['x']] :=
  ⟨by decide, (c4_tag_chars_all_removed ['+', 't'] [['x']] []).1 (by decide)⟩

/-! ## Closed form of the syllable builder (C6, C8) -/

theorem headD_eq_getD_zero (l : List Nat) : l.headD 0 = l.getD 0 0 := by
  cases l <;> rfl

theorem getD_tape_succ (l : List Nat) (j : Nat) : l.getD (j + 1) 0 = l.tail.getD j 0 := by
  cases l <;> simp [List.getD]

theorem drop_tape_succ (l : List Nat) (n : Nat) : l.drop (n + 1) = l.tail.drop n := by
  cases l <;> simp

theorem frontIns_eq_cons (x : List Char) (syl : List (List Char)) :
    (if syl.length == 0 then syl ++ [x] else x :: syl) = x :: syl := by
  cases syl <;> simp

theorem onsPart_succ (O : List (List Char)) (tape : List Nat) (n : Nat) :
    onsPart O tape (n + 1) =
      wrapSound (chooseL O (tape.headD 0) []) :: onsPart O tape.tail n := by
  rw [onsPart, onsPart, List.range_succ_eq_map, List.map_cons, List.map_map]
  rw [headD_eq_getD_zero]
  congr 1
  apply List.map_congr_left
  intro j _
  simp only [Function.comp_apply, Nat.succ_eq_add_one, getD_tape_succ]

theorem postPart_succ (c : Char) (post : List Char) (V C : List (List Char)) (tape : List Nat) :
    postPart (c :: post) V C tape =
      (if c == 'v' then wrapSound (chooseL V (tape.headD 0) [])
       else wrapSound (chooseL C (tape.headD 0) [])) :: postPart post V C tape.tail := by
  rw [postPart, postPart, List.length_cons, List.range_succ_eq_map, List.map_cons, List.map_map]
  rw [headD_eq_getD_zero]
  congr 1
  apply List.map_congr_left
  intro j _
  simp only [Function.comp_apply, Nat.succ_eq_add_one, getD_tape_succ, List.getD_cons_succ]

theorem bsLoop_pre (vi : Nat) (V O C : List (List Char)) :
    ∀ (pre post : List Char) (i : Nat) (syl : List (List Char)) (tape : List Nat),
      i + pre.length = vi → (∀ c ∈ pre, (c == 'v') = false) →
      bsLoop vi V O C (pre ++ post) i syl tape =
        bsLoop vi V O C post vi ((onsPart O tape pre.length).reverse ++ syl)
          (tape.drop pre.length) := by
  intro pre
  induction pre with
  | nil =>
    intro post i syl tape hlen _
    simp only [List.length_nil, Nat.add_zero] at hlen
    subst hlen
    simp [onsPart]
  | cons c pre' ih =>
    intro post i syl tape hlen hnv
    have hc : (c == 'v') = false := hnv c (List.mem_cons_self c pre')
    have hi : i < vi := by
      simp only [List.length_cons] at hlen
      omega
    rw [List.cons_append]
    show bsLoop vi V O C (c :: (pre' ++ post)) i syl tape = _
    rw [bsLoop]
    simp only [hc, Bool.false_eq_true, if_false, hi, if_true, frontIns_eq_cons]
    rw [ih post (i + 1) _ tape.tail
      (by simp only [List.length_cons] at hlen; omega)
      (fun x hx => hnv x (List.mem_cons_of_mem c hx))]
    rw [List.length_cons, onsPart_succ, List.reverse_cons, drop_tape_succ]
    rw [List.append_assoc, List.singleton_append]

theorem bsLoop_post (vi : Nat) (V O C : List (List Char)) :
    ∀ (post : List Char) (i : Nat) (syl : List (List Char)) (tape : List Nat), vi ≤ i →
      bsLoop vi V O C post i syl tape =
        (syl ++ postPart post V C tape, tape.drop post.length) := by
  intro post
  induction post with
  | nil =>
    intro i syl tape _
    simp [bsLoop, postPart]
  | cons c post' ih =>
    intro i syl tape hvi
    rw [bsLoop, postPart_succ]
    cases hc : (c == 'v') with
    | true =>
      simp only [if_true]
      rw [ih (i + 1) _ tape.tail (by omega)]
      rw [List.length_cons, drop_tape_succ, List.append_assoc, List.singleton_append]
    | false =>
      simp only [Bool.false_eq_true, if_false]
      rw [if_neg (by omega)]
      rw [ih (i + 1) _ tape.tail (by omega)]
      rw [List.length_cons, drop_tape_succ, List.append_assoc, List.singleton_append]

theorem take_findIdx_false (p : Char → Bool) :
    ∀ (l : List Char) (c : Char), c ∈ l.take (l.findIdx p) → p c = false := by
  intro l
  induction l with
  | nil => intro c hc; simp at hc
  | cons a l' ih =>
    intro c hc
    rw [List.findIdx_cons] at hc
    cases hpa : p a with
    | true => rw [hpa] at hc; simp at hc
    | false =>
      rw [hpa] at hc
      simp only [cond_false, List.take_succ_cons, List.mem_cons] at hc
      rcases hc with rfl | hc
      · exact hpa
      · exact ih c hc

theorem bsTokens_closed (t : List Char) (V O C : List (List Char)) (tape : List Nat)
    (hv : 'v' ∈ t) :
    buildSyllableTokens t V O C tape =
      ((onsPart O tape (t.findIdx (· == 'v'))).reverse ++
          postPart (t.drop (t.findIdx (· == 'v'))) V C (tape.drop (t.findIdx (· == 'v'))),
        tape.drop t.length) := by
  have hvi : t.findIdx (· == 'v') < t.length :=
    List.findIdx_lt_length_of_exists ⟨'v', hv, by simp⟩
  have htake : (t.take (t.findIdx (· == 'v'))).length = t.findIdx (· == 'v') := by
    rw [List.length_take]
    omega
  rw [buildSyllableTokens]
  rw [show bsLoop (t.findIdx (· == 'v')) V O C t 0 [] tape =
      bsLoop (t.findIdx (· == 'v')) V O C
        (t.take (t.findIdx (· == 'v')) ++ t.drop (t.findIdx (· == 'v'))) 0 [] tape by
    rw [List.take_append_drop]]
  rw [bsLoop_pre _ V O C _ _ 0 [] tape (by rw [htake]; omega)
    (fun c hc => take_findIdx_false (· == 'v') t c hc)]
  rw [bsLoop_post _ V O C _ _ _ _ le_rfl]
  rw [htake, List.append_nil, List.length_drop, List.drop_drop]
  congr 2
  omega

/-- C6: in syllable building every onset draw before the vowel position
becomes the new first element of the syllable, so onset tokens appear in
reverse draw order: concretely, for template `ccv` the built tokens are the
second onset draw, then the first onset draw, then the vowel draw; in
general, the tokens before the vowel are the reversal of the onset run drawn
left to right. -/
theorem c6_front_insertion :
    (∀ (vowels onsets codas : List (List Char)) (d0 d1 d2 : Nat) (rest : List Nat),
        (buildSyllableTokens ['c', 'c', 'v'] vowels onsets codas (d0 :: d1 :: d2 :: rest)).1 =
          [wrapSound (chooseL onsets d1 []), wrapSound (chooseL onsets d0 []),
            wrapSound (chooseL vowels d2 [])]) ∧
      ∀ (t : List Char) (vowels onsets codas : List (List Char)) (tape : List Nat), 'v' ∈ t →
        (buildSyllableTokens t vowels onsets codas tape).1 =
          (onsPart onsets tape (t.findIdx (· == 'v'))).reverse ++
            postPart (t.drop (t.findIdx (· == 'v'))) vowels codas
              (tape.drop (t.findIdx (· == 'v'))) := by
  constructor
  · intro vowels onsets codas d0 d1 d2 rest
    rfl
  · intro t vowels onsets codas tape hv
    rw [bsTokens_closed t vowels onsets codas tape hv]

/-- Witness for `c6_front_insertion` at template `cv` with singleton
inventories. -/
theorem c6_witness :
    'v' ∈ ['c', 'v'] ∧
      (buildSyllableTokens ['c', 'v'] [['a']] [['p']] [['t']] [5, 7]).1 =
        (onsPart [['p']] [5, 7] (['c', 'v'].findIdx (· == 'v'))).reverse ++
          postPart (['c', 'v'].drop (['c', 'v'].findIdx (· == 'v'))) [['a']] [['t']]
            ([5, 7].drop (['c', 'v'].findIdx (· == 'v'))) :=
  ⟨by decide, c6_front_insertion.2 ['c', 'v'] [['a']] [['p']] [['t']] [5, 7] (by decide)⟩

theorem postPart_mem_codas (rest : List Char) (V C : List (List Char)) (tp : List Nat)
    (hC : C ≠ []) (hrest : ∀ c ∈ rest, c ≠ 'v') :
    ∀ x ∈ postPart rest V C tp, x ∈ C.map wrapSound := by
  intro x hx
  rw [postPart] at hx
  obtain ⟨j, hj, rfl⟩ := List.mem_map.mp hx
  have hjlt : j < rest.length := List.mem_range.mp hj
  have hne : rest.getD j ' ' ≠ 'v' := by
    rw [List.getD_eq_getElem rest ' ' hjlt]
    exact hrest _ (List.getElem_mem hjlt)
  rw [if_neg (by simp only [beq_iff_eq]; exact hne)]
  exact List.mem_map.mpr ⟨chooseL C (tp.getD j 0) [], chooseL_mem hC _ _, rfl⟩

/-- C8: for every template over `{c, v}` containing exactly one `v`, the built
syllable consists of onset tokens for the positions before the `v` (as many as
there are such positions), exactly one vowel-origin token drawn from
`vowels`, and coda tokens for the positions after the `v`. -/
theorem c8_token_counts (t : List Char) (vowels onsets codas : List (List Char))
    (tape : List Nat) (hV : vowels ≠ []) (hO : onsets ≠ []) (hC : codas ≠ [])
    (halpha : ∀ c ∈ t, c = 'c' ∨ c = 'v') (hcount : t.count 'v' = 1) :
    ∃ os vt cs,
      (buildSyllableTokens t vowels onsets codas tape).1 = os ++ vt :: cs ∧
        os.length = t.findIdx (· == 'v') ∧
        cs.length = t.length - t.findIdx (· == 'v') - 1 ∧
        vt ∈ vowels.map wrapSound ∧
        (∀ x ∈ os, x ∈ onsets.map wrapSound) ∧
        (∀ x ∈ cs, x ∈ codas.map wrapSound) := by
  have hv : 'v' ∈ t := by
    by_contra h
    rw [List.count_eq_zero.mpr h] at hcount
    omega
  have hvi : t.findIdx (· == 'v') < t.length :=
    List.findIdx_lt_length_of_exists ⟨'v', hv, by simp⟩
  have hgetv : t[t.findIdx (· == 'v')] = 'v' := by
    have h2 : ((· == 'v') t[t.findIdx (· == 'v')]) = true := @List.findIdx_getElem _ _ _ hvi
    simpa using h2
  have hdrop : t.drop (t.findIdx (· == 'v')) = 'v' :: t.drop (t.findIdx (· == 'v') + 1) := by
    rw [List.drop_eq_getElem_cons hvi, hgetv]
  have hrest : ∀ c ∈ t.drop (t.findIdx (· == 'v') + 1), c ≠ 'v' := by
    have hsplit := List.take_append_drop (t.findIdx (· == 'v')) t
    have hcount2 : (t.take (t.findIdx (· == 'v'))).count 'v' +
        (t.drop (t.findIdx (· == 'v'))).count 'v' = 1 := by
      rw [← List.count_append, hsplit]
      exact hcount
    have htake0 : (t.take (t.findIdx (· == 'v'))).count 'v' = 0 := by
      rw [List.count_eq_zero]
      intro hmem
      have := take_findIdx_false (· == 'v') t 'v' hmem
      simp at this
    rw [htake0, hdrop, List.count_cons_self] at hcount2
    intro c hc hcv
    subst hcv
    have : (t.drop (t.findIdx (· == 'v') + 1)).count 'v' = 0 := by omega
    rw [List.count_eq_zero] at this
    exact this hc
  refine ⟨(onsPart onsets tape (t.findIdx (· == 'v'))).reverse,
    wrapSound (chooseL vowels ((tape.drop (t.findIdx (· == 'v'))).headD 0) []),
    postPart (t.drop (t.findIdx (· == 'v') + 1)) vowels codas
      (tape.drop (t.findIdx (· == 'v'))).tail, ?_, ?_, ?_, ?_, ?_, ?_⟩
  · have := bsTokens_closed t vowels onsets codas tape hv
    rw [show (buildSyllableTokens t vowels onsets codas tape).1 =
        (onsPart onsets tape (t.findIdx (· == 'v'))).reverse ++
          postPart (t.drop (t.findIdx (· == 'v'))) vowels codas
            (tape.drop (t.findIdx (· == 'v'))) by rw [this]]
    rw [hdrop, postPart_succ]
    simp
  · simp [onsPart]
  · simp only [postPart, List.length_map, List.length_range, List.length_drop]
    omega
  · exact List.mem_map.mpr ⟨_, chooseL_mem hV _ _, rfl⟩
  · intro x hx
    rw [List.mem_reverse, onsPart] at hx
    obtain ⟨j, _, rfl⟩ := List.mem_map.mp hx
    exact List.mem_map.mpr ⟨chooseL onsets (tape.getD j 0) [], chooseL_mem hO _ _, rfl⟩
  · exact postPart_mem_codas _ vowels codas _ hC hrest

/-- Witness for `c8_token_counts` at template `cvc` with singleton
inventories. -/
theorem c8_witness :
    ((['a'] : List Char) ≠ [] ∧ (∀ c ∈ ['c', 'v', 'c'], c = 'c' ∨ c = 'v') ∧
        (['c', 'v', 'c'] : List Char).count 'v' = 1) ∧
      ∃ os vt cs,
        (buildSyllableTokens ['c', 'v', 'c'] [['a']] [['p']] [['t']] [0, 0, 0]).1 =
            os ++ vt :: cs ∧
          os.length = (['c', 'v', 'c'] : List Char).findIdx (· == 'v') ∧
          cs.length = (['c', 'v', 'c'] : List Char).length -
            (['c', 'v', 'c'] : List Char).findIdx (· == 'v') - 1 ∧
          vt ∈ [['a']].map wrapSound ∧
          (∀ x ∈ os, x ∈ [['p']].map wrapSound) ∧
          (∀ x ∈ cs, x ∈ [['t']].map wrapSound) :=
  ⟨⟨by decide, by decide, by decide⟩,
    c8_token_counts ['c', 'v', 'c'] [['a']] [['p']] [['t']] [0, 0, 0]
      (by decide) (by decide) (by decide) (by decide) (by decide)⟩

/-! ## C2: stress-marker count of the assembled word -/

theorem bsLoop_tokens_wrapped (vi : Nat) (V O C : List (List Char)) :
    ∀ (sub : List Char) (i : Nat) (syl : List (List Char)) (tape : List Nat),
      (∀ tok ∈ syl, ∃ s, tok = wrapSound s) →
      ∀ tok ∈ (bsLoop vi V O C sub i syl tape).1, ∃ s, tok = wrapSound s := by
  intro sub
  induction sub with
  | nil => intro i syl tape hsyl tok htok; exact hsyl tok htok
  | cons c rest ih =>
    intro i syl tape hsyl tok htok
    rw [bsLoop] at htok
    by_cases hc : (c == 'v') = true
    · rw [if_pos hc] at htok
      refine ih (i + 1) _ tape.tail ?_ tok htok
      intro x hx
      rcases List.mem_append.mp hx with hx | hx
      · exact hsyl x hx
      · exact ⟨_, by simpa using hx⟩
    · rw [if_neg hc] at htok
      by_cases hi : i < vi
      · rw [if_pos hi, frontIns_eq_cons] at htok
        refine ih (i + 1) _ tape.tail ?_ tok htok
        intro x hx
        rcases List.mem_cons.mp hx with rfl | hx
        · exact ⟨_, rfl⟩
        · exact hsyl x hx
      · rw [if_neg hi] at htok
        refine ih (i + 1) _ tape.tail ?_ tok htok
        intro x hx
        rcases List.mem_append.mp hx with hx | hx
        · exact hsyl x hx
        · exact ⟨_, by simpa using hx⟩

theorem syllable_ne_mark (templ : List Char) (config : Config)
    (onsets codas : List (List Char)) (tape : List Nat) :
    (buildSyllable templ config onsets codas tape).1 ≠ [stressC] := by
  have hw : ∀ tok ∈ (buildSyllableTokens templ config.vowels onsets codas tape).1,
      ∃ s, tok = wrapSound s :=
    bsLoop_tokens_wrapped (templ.findIdx (· == 'v')) config.vowels onsets codas
      templ 0 [] tape (by intro tok htok; simp at htok)
  show ((buildSyllableTokens templ config.vowels onsets codas tape).1).flatten ≠ [stressC]
  rcases he : (buildSyllableTokens templ config.vowels onsets codas tape).1 with _ | ⟨x, xs⟩
  · simp [stressC]
  · obtain ⟨s, rfl⟩ := hw x (by rw [he]; exact List.mem_cons_self _ _)
    rw [List.flatten_cons]
    intro hcontra
    have : '[' = stressC := by
      have h2 := congrArg (fun l => l.headD ' ') hcontra
      simpa [wrapSound] using h2
    exact absurd this (by decide)

theorem asmLoop_count (config : Config) (O C : List (List Char)) (sc : Nat) :
    ∀ (idxs : List Nat) (word : List (List Char)) (tape : List Nat),
      ((asmLoop config O C sc idxs word tape).1).count [stressC] =
        word.count [stressC] +
          idxs.countP (fun i => stressCond config.stressed sc i) := by
  intro idxs
  induction idxs with
  | nil => intro word tape; simp [asmLoop]
  | cons i rest ih =>
    intro word tape
    rw [asmLoop, ih, List.countP_cons]
    have hsyl : ∀ tmpl, (buildSyllable tmpl config O C tape.tail).1 ≠ [stressC] :=
      fun tmpl => syllable_ne_mark tmpl config O C tape.tail
    have hspace : (' ' : Char) ≠ stressC := by decide
    by_cases hstress : stressCond config.stressed sc i = true
    · by_cases hlast : (i != sc - 1) = true
      · simp [hstress, hlast, List.count_append, List.count_cons, hsyl, hspace]
        omega
      · simp [hstress, hlast, List.count_append, List.count_cons, hsyl, hspace]
        omega
    · by_cases hlast : (i != sc - 1) = true
      · simp [hstress, hlast, List.count_append, List.count_cons, hsyl, hspace]
      · simp [hstress, hlast, List.count_append, List.count_cons, hsyl, hspace]

theorem countP_range_one (p : Nat → Bool) :
    ∀ (n i0 : Nat), i0 < n → p i0 = true → (∀ j, j < n → p j = true → j = i0) →
      (List.range n).countP p = 1 := by
  intro n
  induction n with
  | zero => intro i0 h _ _; omega
  | succ n ih =>
    intro i0 hi0 hp hu
    rw [List.range_succ, List.countP_append]
    by_cases hcase : i0 = n
    · have hzero : (List.range n).countP p = 0 := by
        rw [List.countP_eq_zero]
        intro j hj hpj
        have hji := hu j (Nat.lt_succ_of_lt (List.mem_range.mp hj)) hpj
        have hjn := List.mem_range.mp hj
        omega
      rw [hzero, List.countP_cons, List.countP_nil, show p n = true from hcase ▸ hp]
      simp
    · have hi0n : i0 < n := by omega
      have hone := ih i0 hi0n hp (fun j hj hpj => hu j (Nat.lt_succ_of_lt hj) hpj)
      have hpn : p n = false := by
        cases hpn : p n with
        | false => rfl
        | true => exact absurd (hu n (Nat.lt_succ_self n) hpn).symm hcase
      rw [hone, List.countP_cons, List.countP_nil, hpn]
      simp

theorem assembleWord_count (config : Config) (O C : List (List Char)) (tape : List Nat) :
    ((assembleWord config O C tape).1).count [stressC] =
      (List.range (1 + tape.headD 0 % config.max_syllable_count.toNat)).countP
        (fun i => stressCond config.stressed
          (1 + tape.headD 0 % config.max_syllable_count.toNat) i) := by
  show ((asmLoop config O C _ (List.range _) [] tape.tail).1).count [stressC] = _
  rw [asmLoop_count]
  simp

/-- C2 amended: the word assembled by `create_word` before affixation contains
exactly one stress marker provided the drawn syllable count is 1 or the
stress index lies in `[-syllableCount, syllableCount)`; an out-of-range
stress index yields a word with no stress marker (see `c2_counterexample`). -/
theorem c2_exactly_one_stress_marker (config : Config) (onsets codas : List (List Char))
    (tape : List Nat) (sc : Nat)
    (hmax : 1 ≤ config.max_syllable_count)
    (hsc : sc = 1 + tape.headD 0 % config.max_syllable_count.toNat)
    (hrange : (sc : Int) = 1 ∨
      (-(sc : Int) ≤ config.stressed ∧ config.stressed < (sc : Int))) :
    ((assembleWord config onsets codas tape).1).count [stressC] = 1 := by
  rw [assembleWord_count, ← hsc]
  rcases hrange with h1 | ⟨hlo, hhi⟩
  · have hsc1 : sc = 1 := by exact_mod_cast h1
    subst hsc1
    have hp : stressCond config.stressed 1 0 = true := by
      simp [stressCond]
    have hr1 : List.range 1 = [0] := by decide
    rw [hr1, List.countP_cons, List.countP_nil, hp]
    simp
  · by_cases hpos : 0 ≤ config.stressed
    · apply countP_range_one _ sc config.stressed.toNat
      · omega
      · simp only [stressCond, Bool.or_eq_true, beq_iff_eq]
        omega
      · intro j hj hpj
        simp only [stressCond, Bool.or_eq_true, beq_iff_eq] at hpj
        omega
    · push_neg at hpos
      apply countP_range_one _ sc ((sc : Int) + config.stressed).toNat
      · omega
      · simp only [stressCond, Bool.or_eq_true, beq_iff_eq]
        omega
      · intro j hj hpj
        simp only [stressCond, Bool.or_eq_true, beq_iff_eq] at hpj
        omega

/-- Witness for `c2_exactly_one_stress_marker` at the §8 scenario descriptor
and the empty tape. -/
theorem c2_witness :
    ((1 : Int) ≤ cfgScenario.max_syllable_count ∧
        1 = 1 + ([] : List Nat).headD 0 % cfgScenario.max_syllable_count.toNat ∧
        (((1 : Nat) : Int) = 1 ∨
          (-((1 : Nat) : Int) ≤ cfgScenario.stressed ∧
            cfgScenario.stressed < ((1 : Nat) : Int)))) ∧
      ((assembleWord cfgScenario [['p']] [] []).1).count [stressC] = 1 :=
  ⟨⟨by decide, by decide, Or.inl (by decide)⟩,
    c2_exactly_one_stress_marker cfgScenario [['p']] [] [] 1
      (by decide) (by decide) (Or.inl (by decide))⟩

/-! ## C3: romanization as a token-wise substitution, and order invariance -/

theorem wrapSound_inj {s k : List Char} (h : wrapSound s = wrapSound k) : s = k := by
  rw [wrapSound, wrapSound] at h
  exact List.append_cancel_right (List.cons_injective h)

theorem beq_wrapSound_false_of_raw {t k : List Char} (ht : '[' ∉ t) :
    (t == wrapSound k) = false := by
  rw [beq_eq_false_iff_ne]
  intro h
  exact ht (h ▸ (by simp [wrapSound] : '[' ∈ wrapSound k))

theorem replaceAll_flatten_subst (k v : List Char) (hk : ']' ∉ k) :
    ∀ word : List (List Char), (∀ t ∈ word, wfTok t) →
      replaceAll word.flatten (wrapSound k) v = (word.map (substTok k v)).flatten := by
  intro word
  induction word with
  | nil => intro _; rfl
  | cons t rest ih =>
    intro hwf
    have hrest : ∀ x ∈ rest, wfTok x := fun x hx => hwf x (List.mem_cons_of_mem t hx)
    rw [List.flatten_cons, List.map_cons, List.flatten_cons]
    rcases hwf t (List.mem_cons_self t rest) with ⟨ht1, _⟩ | ⟨s, rfl, hs1, hs2⟩
    · rw [replaceAll_skip (wrapSound k) v (by simp [wrapSound]) t _ ht1, ih hrest]
      rw [substTok, if_neg (by simp [beq_wrapSound_false_of_raw ht1])]
    · by_cases hsk : s = k
      · subst hsk
        rw [replaceAll_wrapped_eq, ih hrest]
        rw [substTok, if_pos (by simp)]
      · rw [replaceAll_wrapped_ne s k _ v hk hs1 hs2 hsk, ih hrest]
        have hne2 : (wrapSound s == wrapSound k) = false := by
          rw [beq_eq_false_iff_ne]
          intro h
          exact hsk (wrapSound_inj h)
        rw [substTok, if_neg (by simp [hne2])]

theorem substTok_wf {k v t : List Char} (hv : bracketFree v) (ht : wfTok t) :
    wfTok (substTok k v t) := by
  rw [substTok]
  by_cases h : (t == wrapSound k) = true
  · rw [if_pos h]
    exact Or.inl hv
  · rw [if_neg h]
    exact ht

theorem foldl_replace_flatten :
    ∀ (ps : List (List Char × List Char)) (word : List (List Char)),
      (∀ kv ∈ ps, bracketFree kv.1 ∧ bracketFree kv.2) →
      (∀ t ∈ word, wfTok t) →
      ps.foldl (fun acc kv => replaceAll acc (wrapSound kv.1) kv.2) word.flatten =
        (word.map (applyPairs ps)).flatten := by
  intro ps
  induction ps with
  | nil =>
    intro word _ _
    have h : List.map (applyPairs []) word = word := by
      have he : applyPairs ([] : List (List Char × List Char)) = fun t => t := rfl
      rw [he]
      exact List.map_id' word
    rw [List.foldl_nil, h]
  | cons kv ps' ih =>
    intro word hbf hwf
    have hbf' : ∀ x ∈ ps', bracketFree x.1 ∧ bracketFree x.2 :=
      fun x hx => hbf x (List.mem_cons_of_mem kv hx)
    have hk : ']' ∉ kv.1 := (hbf kv (List.mem_cons_self kv ps')).1.2
    have hv : bracketFree kv.2 := (hbf kv (List.mem_cons_self kv ps')).2
    rw [List.foldl_cons]
    rw [replaceAll_flatten_subst kv.1 kv.2 hk word hwf]
    rw [ih (word.map (substTok kv.1 kv.2))
      hbf' (fun x hx => by
        obtain ⟨t, ht, rfl⟩ := List.mem_map.mp hx
        exact substTok_wf hv (hwf t ht))]
    rw [List.map_map]
    rfl

theorem applyPairs_raw (t : List Char) (ht : '[' ∉ t) :
    ∀ ps : List (List Char × List Char), applyPairs ps t = t := by
  intro ps
  induction ps with
  | nil => rfl
  | cons kv ps' ih =>
    show applyPairs ps' (substTok kv.1 kv.2 t) = t
    rw [substTok, if_neg (by simp [beq_wrapSound_false_of_raw ht])]
    exact ih

theorem applyPairs_wrapped (s : List Char) :
    ∀ ps : List (List Char × List Char),
      (∀ kv ∈ ps, bracketFree kv.2) →
      applyPairs ps (wrapSound s) = (assocLookup ps s).getD (wrapSound s) := by
  intro ps
  induction ps with
  | nil => intro _; rfl
  | cons kv ps' ih =>
    intro hbf
    show applyPairs ps' (substTok kv.1 kv.2 (wrapSound s)) = _
    rw [assocLookup]
    by_cases hks : (kv.1 == s) = true
    · have hks' : kv.1 = s := by simpa using hks
      rw [if_pos hks]
      rw [substTok, if_pos (by simp [hks'])]
      exact applyPairs_raw kv.2 (hbf kv (List.mem_cons_self kv ps')).1 ps'
    · rw [if_neg hks]
      rw [substTok, if_neg (fun h => hks (by
        have h2 := wrapSound_inj (by simpa using h : wrapSound s = wrapSound kv.1)
        simp [h2]))]
      exact ih (fun x hx => hbf x (List.mem_cons_of_mem kv hx))

theorem assocLookup_perm {ps1 ps2 : List (List Char × List Char)}
    (hperm : ps1.Perm ps2) (hnodup : (ps1.map Prod.fst).Nodup) :
    ∀ s, assocLookup ps1 s = assocLookup ps2 s := by
  induction hperm with
  | nil => intro s; rfl
  | cons x h ih =>
    intro s
    rw [assocLookup, assocLookup]
    rw [List.map_cons, List.nodup_cons] at hnodup
    by_cases hx : (x.1 == s) = true
    · rw [if_pos hx, if_pos hx]
    · rw [if_neg hx, if_neg hx]
      exact ih hnodup.2 s
  | swap x y l =>
    intro s
    rw [List.map_cons, List.map_cons, List.nodup_cons, List.nodup_cons] at hnodup
    have hxy : y.1 ≠ x.1 := fun h => hnodup.1 (by rw [h]; exact List.mem_cons_self _ _)
    rw [assocLookup, assocLookup, assocLookup, assocLookup]
    by_cases hy : (y.1 == s) = true
    · have hx : (x.1 == s) = false := by
        rw [beq_eq_false_iff_ne]
        intro h
        exact hxy (by rw [h, ← (show y.1 = s by simpa using hy)])
      rw [if_pos hy, if_neg (by simp [hx]), if_pos hy]
    · rw [if_neg hy]
      by_cases hx : (x.1 == s) = true
      · rw [if_pos hx, if_pos hx]
      · rw [if_neg hx, if_neg hx, if_neg hy]
  | trans h1 h2 ih1 ih2 =>
    intro s
    rw [ih1 hnodup s]
    have hnodup2 : _ := ((h1.map Prod.fst).nodup_iff).mp hnodup
    rw [ih2 hnodup2 s]

/-- C3 amended: rendering is insensitive to the iteration order of the
romanization pairs provided the keys are distinct (as HashMap keys are), all
keys and graphemes are bracket-free, and the flattened word decomposes into
bracket-delimited phonemes with bracket-free payloads and bracket-free marker
text — conditions met by every word assembled from bracket-free inventories.
Without them the order is observable (`c3_counterexample`), and since the
HashMap iteration order is unspecified, repeated runs are only guaranteed to
agree under these conditions. -/
theorem c3_order_invariant_when_bracket_free (word : List (List Char)) (cfg : Config)
    (ps2 : List (List Char × List Char)) (atoms : List (List Char))
    (hatoms : word.flatten = atoms.flatten)
    (hwf : ∀ t ∈ atoms, wfTok t)
    (hperm : cfg.romanization.Perm ps2)
    (hnodup : (cfg.romanization.map Prod.fst).Nodup)
    (hbf : ∀ kv ∈ cfg.romanization, bracketFree kv.1 ∧ bracketFree kv.2) :
    createFinalStr word cfg = createFinalStr word (withRom cfg ps2) := by
  have hbf2 : ∀ kv ∈ ps2, bracketFree kv.1 ∧ bracketFree kv.2 :=
    fun kv hkv => hbf kv (hperm.mem_iff.mpr hkv)
  have hclone :
      cfg.romanization.foldl (fun acc kv => replaceAll acc (wrapSound kv.1) kv.2)
          atoms.flatten =
        ps2.foldl (fun acc kv => replaceAll acc (wrapSound kv.1) kv.2) atoms.flatten := by
    rw [foldl_replace_flatten cfg.romanization atoms hbf hwf,
      foldl_replace_flatten ps2 atoms hbf2 hwf]
    congr 1
    apply List.map_congr_left
    intro t ht
    rcases hwf t ht with ⟨ht1, _⟩ | ⟨s, rfl, _, _⟩
    · rw [applyPairs_raw t ht1, applyPairs_raw t ht1]
    · rw [applyPairs_wrapped s cfg.romanization (fun kv hkv => (hbf kv hkv).2),
        applyPairs_wrapped s ps2 (fun kv hkv => (hbf2 kv hkv).2),
        assocLookup_perm hperm hnodup s]
  have h1 : createFinalStr word cfg =
      (replaceAll (replaceAll word.flatten ['['] []) [']'] [],
        replaceAll (replaceAll (replaceAll (replaceAll
          (cfg.romanization.foldl
            (fun acc kv => replaceAll acc (wrapSound kv.1) kv.2) word.flatten)
          [stressC] []) [' '] []) ['['] []) [']'] []) := rfl
  have h2 : createFinalStr word (withRom cfg ps2) =
      (replaceAll (replaceAll word.flatten ['['] []) [']'] [],
        replaceAll (replaceAll (replaceAll (replaceAll
          (ps2.foldl
            (fun acc kv => replaceAll acc (wrapSound kv.1) kv.2) word.flatten)
          [stressC] []) [' '] []) ['['] []) [']'] []) := rfl
  rw [h1, h2, hatoms, hclone]

/-- Witness for `c3_order_invariant_when_bracket_free`: the word `' [p][a]`
with the bracket-free mapping `p ↦ x, a ↦ y` in both iteration orders. -/
theorem c3_witness :
    (([[stressC], ['[', 'p', ']', '[', 'a', ']']] : List (List Char)).flatten =
        ([[stressC], wrapSound ['p'], wrapSound ['a']] : List (List Char)).flatten ∧
      (⟨[], [], [], [], 0, [(['p'], ['x']), (['a'], ['y'])], [], 1⟩ :
          Config).romanization.Perm [(['a'], ['y']), (['p'], ['x'])]) ∧
    createFinalStr [[stressC], ['[', 'p', ']', '[', 'a', ']']]
        ⟨[], [], [], [], 0, [(['p'], ['x']), (['a'], ['y'])], [], 1⟩ =
      createFinalStr [[stressC], ['[', 'p', ']', '[', 'a', ']']]
        (withRom ⟨[], [], [], [], 0, [(['p'], ['x']), (['a'], ['y'])], [], 1⟩
          [(['a'], ['y']), (['p'], ['x'])]) := by
  refine ⟨⟨by decide, List.Perm.swap _ _ _⟩, ?_⟩
  apply c3_order_invariant_when_bracket_free _ _ _
    [[stressC], wrapSound ['p'], wrapSound ['a']]
  · decide
  · intro t ht
    simp only [List.mem_cons, List.not_mem_nil, or_false] at ht
    rcases ht with rfl | rfl | rfl
    · exact Or.inl (by decide)
    · exact Or.inr ⟨['p'], rfl, by decide⟩
    · exact Or.inr ⟨['a'], rfl, by decide⟩
  · exact List.Perm.swap _ _ _
  · decide
  · decide

end Namesmith
